import Mathlib

/-!
Verification of the incremental append-only Merkle tree engine
(src/merkle/merkle.go of opinit-bots).

The Go code is shallowly embedded: byte strings become lists of naturals,
the key-value node store becomes a function from node coordinates to
optional byte strings, and the mutable engine state becomes explicit state
passing.  Go's uint64 arithmetic is modelled with Nat; the one place where
64-bit wrap-around is observable to a claim (the successor-tree arithmetic
in LoadWorkingTree) carries an explicit mod 2^64.  JSON encoding and
decoding of tree records round-trips, so the codec is modelled as the
identity: KV values hold the records themselves.
-/

namespace OpinitMerkle

/-- Byte strings ([]byte in Go). -/
abbrev Bytes := List Nat

/-- The per-level frontier map (map[uint8][]byte in Go): a Go map read of a
missing key yields nil, modelled by Option with nil = none. -/
abbrev Sibs := Nat → Option Bytes

/-- Node store: (treeIndex, height, localNodeIndex) to stored node bytes.
Embeds the db records written under PrefixedNodeKey. -/
abbrev NodeStore := Nat × Nat × Nat → Option Bytes

/-- Fuel-indexed bit length.  With fuel at least n, len64Aux fuel n is the
number of binary digits of n; this embeds Go's bits.Len64. -/
def len64Aux : Nat → Nat → Nat
  | 0, _ => 0
  | fuel + 1, n => if n = 0 then 0 else len64Aux fuel (n / 2) + 1

/-- Bit length of n (bits.Len64 from the Go standard library):
the minimal number of bits needed to represent n; len64 0 = 0. -/
def len64 (n : Nat) : Nat := len64Aux n n

/-- merkletypes.TreeInfo: the mutable working-tree state. -/
structure TreeInfo where
  index : Nat
  startLeafIndex : Nat
  leafCount : Nat
  lastSiblings : Sibs
  done : Bool

/-- merkletypes.FinalizedTreeInfo: the immutable record written at
finalization. -/
structure FinalizedTreeInfo where
  treeIndex : Nat
  treeHeight : Nat
  root : Bytes
  startLeafIndex : Nat
  leafCount : Nat
  extraData : Bytes
deriving DecidableEq

/-- The error values surfaced by the engine (Go errors, by identity). -/
inductive MerkleError where
  | workingTreeNotInitialized
  | invalidIndex (treeIndex startLeafIndex : Nat)
  | nonCommutativePair
  | unfinalizedTree
  | leafNotInTree (leafIndex treeIndex : Nat)
  | nodeNotFound
  | codecError
deriving DecidableEq

/-- The engine state: the Merkle struct's workingTree pointer (nil = none)
together with the node records it has written to the store. -/
structure MerkleState where
  workingTree : Option TreeInfo
  nodes : NodeStore

/-- Point update of the frontier map (LastSiblings[height] = data). -/
def updateSib (sibs : Sibs) (height : Nat) (v : Bytes) : Sibs :=
  fun h => if h = height then some v else sibs h

/-- Point update of the node store (saveNode). -/
def updateNode (nodes : NodeStore) (tIdx height localIdx : Nat) (v : Bytes) : NodeStore :=
  fun k => if k = (tIdx, height, localIdx) then some v else nodes k

/-- The InsertLeaf loop of merkle.go: save the node, update the last
sibling of the level, and while the local index is odd fold with the
stored sibling and promote to the next level.  The loop runs at most
len64 localIdx + 1 iterations, so any fuel above localIdx suffices. -/
def insertLoop (f : Bytes → Bytes → Bytes) (tIdx : Nat) :
    Nat → Nat → Nat → Bytes → Sibs → NodeStore → Sibs × NodeStore
  | 0, _, _, _, sibs, nodes => (sibs, nodes)
  | fuel + 1, height, localIdx, data, sibs, nodes =>
    let nodes1 := updateNode nodes tIdx height localIdx data
    let sibling := (sibs height).getD []
    let sibs1 := updateSib sibs height data
    if localIdx % 2 = 0 then (sibs1, nodes1)
    else insertLoop f tIdx fuel (height + 1) (localIdx / 2) (f sibling data) sibs1 nodes1

/-- InsertLeaf at the tree level: runs the loop from height 0 and local
index LeafCount, then increments LeafCount. -/
def insertLeafTree (f : Bytes → Bytes → Bytes) (wt : TreeInfo) (nodes : NodeStore)
    (data : Bytes) : TreeInfo × NodeStore :=
  let r := insertLoop f wt.index (wt.leafCount + 1) 0 wt.leafCount data wt.lastSiblings nodes
  ({ wt with lastSiblings := r.1, leafCount := wt.leafCount + 1 }, r.2)

/-- Merkle.InsertLeaf: errors when no working tree exists, otherwise
mutates tree and node store.  The Done flag is not inspected. -/
def InsertLeaf (f : Bytes → Bytes → Bytes) (s : MerkleState) (data : Bytes) :
    MerkleState × Option MerkleError :=
  match s.workingTree with
  | none => (s, some .workingTreeNotInitialized)
  | some wt =>
    let r := insertLeafTree f wt s.nodes data
    ({ workingTree := some r.1, nodes := r.2 }, none)

/-- Height of a tree with the given leaf count (the body of
Merkle.Height): leafCount itself when at most 1, else the bit length of
leafCount - 1. -/
def heightOf (leafCount : Nat) : Nat :=
  if leafCount ≤ 1 then leafCount else len64 (leafCount - 1)

/-- Merkle.Height: errors when no working tree exists. -/
def Height (s : MerkleState) : Except MerkleError Nat :=
  match s.workingTree with
  | none => .error .workingTreeNotInitialized
  | some wt => .ok (heightOf wt.leafCount)

/-- Merkle.InitializeWorkingTree: rejects zero indices, otherwise installs
a fresh tree with empty frontier.  Does not touch the node store. -/
def InitializeWorkingTree (s : MerkleState) (treeIndex startLeafIndex : Nat) :
    MerkleState × Option MerkleError :=
  if treeIndex < 1 ∨ startLeafIndex < 1 then
    (s, some (.invalidIndex treeIndex startLeafIndex))
  else
    let fresh : TreeInfo :=
      { index := treeIndex, startLeafIndex := startLeafIndex, leafCount := 0,
        lastSiblings := fun _ => none, done := false }
    ({ s with workingTree := some fresh }, none)

/-- Iterated insertion of the same leaf data (the fillLeaves loop body). -/
def iterateInsert (f : Bytes → Bytes → Bytes) (data : Bytes) :
    Nat → TreeInfo × NodeStore → TreeInfo × NodeStore
  | 0, p => p
  | k + 1, p => iterateInsert f data k (insertLeafTree f p.1 p.2 data)

/-- Merkle.fillLeaves: pad the tree to 2^height leaves by reinserting the
last real leaf (LastSiblings[0]), then decrement LeafCount back to the
unpadded value. -/
def fillLeaves (f : Bytes → Bytes → Bytes) (wt : TreeInfo) (nodes : NodeStore) :
    TreeInfo × NodeStore :=
  let height := heightOf wt.leafCount
  let numRest := 2 ^ height - wt.leafCount
  if numRest = 0 then (wt, nodes)
  else
    let lastLeaf := (wt.lastSiblings 0).getD []
    let r := iterateInsert f lastLeaf numRest (wt, nodes)
    ({ r.1 with leafCount := r.1.leafCount - numRest }, r.2)

/-- Modelled from the spec: merkletypes' key layout (spec section 4.B) —
8-byte big-endian encoding of a 64-bit integer; the merkletypes package is
not under src. -/
def be64 (n : Nat) : Bytes :=
  [n / 2 ^ 56 % 256, n / 2 ^ 48 % 256, n / 2 ^ 40 % 256, n / 2 ^ 32 % 256,
   n / 2 ^ 24 % 256, n / 2 ^ 16 % 256, n / 2 ^ 8 % 256, n % 256]

/-- Modelled from the spec: the finalized-tree key family head bytes
(spec section 4.B, the merkletypes package is not under src). -/
def finalizedTreeKeyHead : Bytes := (String.toList "finalized_tree/").map Char.toNat

/-- Modelled from the spec: FinalizedTreeInfo.Key — the finalized-tree
record key, head bytes followed by the big-endian start leaf index
(spec section 4.B). -/
def finalizedTreeKey (startLeafIndex : Nat) : Bytes :=
  finalizedTreeKeyHead ++ be64 startLeafIndex

/-- Modelled from the spec: merkletypes.EmptyRootHash, a well-known
32-byte sentinel (spec section 4.B); its concrete value is not under src
and no claim depends on it. -/
def emptyRootHash : Bytes := List.replicate 32 0

/-- A pending key-value pair returned by finalization (types.RawKV).  The
value is the finalized record itself: json round-trips, so the codec is
modelled as the identity. -/
structure RawKV where
  key : Bytes
  value : FinalizedTreeInfo
deriving DecidableEq

/-- Merkle.FinalizeWorkingTree: marks Done, returns EmptyRootHash for an
empty tree, otherwise pads, computes the height, takes the root from
LastSiblings[height] and returns the single-entry batch and the root. -/
def FinalizeWorkingTree (f : Bytes → Bytes → Bytes) (s : MerkleState) (extraData : Bytes) :
    MerkleState × Except MerkleError (List RawKV × Bytes) :=
  match s.workingTree with
  | none => (s, .error .workingTreeNotInitialized)
  | some wt0 =>
    let wt := { wt0 with done := true }
    if wt.leafCount = 0 then
      ({ s with workingTree := some wt }, .ok ([], emptyRootHash))
    else
      let r := fillLeaves f wt s.nodes
      let height := heightOf r.1.leafCount
      let root := (r.1.lastSiblings height).getD []
      let fti : FinalizedTreeInfo :=
        { treeIndex := r.1.index, treeHeight := height, root := root,
          startLeafIndex := r.1.startLeafIndex, leafCount := r.1.leafCount,
          extraData := extraData }
      ({ workingTree := some r.1, nodes := r.2 },
       .ok ([{ key := finalizedTreeKey r.1.startLeafIndex, value := fti }], root))

/-- Merkle.LoadWorkingTree.  The db read and json.Unmarshal are
environment: the decode outcome is passed in as the partially decoded
record plus an error flag.  The source assigns the decoded struct to the
engine before checking the decode error; on a Done record it initializes
the successor tree, whose indices are computed in uint64 arithmetic. -/
def LoadWorkingTree (s : MerkleState) (decoded : TreeInfo) (decodeErr : Bool) :
    MerkleState × Option MerkleError :=
  let s1 : MerkleState := { s with workingTree := some decoded }
  if decodeErr then (s1, some .codecError)
  else if decoded.done then
    InitializeWorkingTree s1 ((decoded.index + 1) % 2 ^ 64)
      ((decoded.startLeafIndex + decoded.leafCount) % 2 ^ 64)
  else (s1, none)

/-- validateNodeGeneratorFn: the commutativity self-test.  The two random
32-byte buffers drawn by crypto/rand are environment and passed in. -/
def validateNodeGeneratorFn (f : Bytes → Bytes → Bytes) (rand1 rand2 : Bytes) :
    Option MerkleError :=
  if f rand1 rand2 = f rand2 rand1 then none else some .nonCommutativePair

/-- NewMerkle: runs the self-test on the two drawn buffers; on success the
engine starts with no working tree. -/
def NewMerkle (f : Bytes → Bytes → Bytes) (rand1 rand2 : Bytes) :
    Except MerkleError MerkleState :=
  match validateNodeGeneratorFn f rand1 rand2 with
  | some e => .error e
  | none => .ok { workingTree := none, nodes := fun _ => none }

/-- dbtypes.ToUint64Key applied to the trailing 8 bytes of a key, as done
by the delete-future functions. -/
def trailingUint64 (key : Bytes) : Nat :=
  (key.drop (key.length - 8)).foldl (fun acc b => acc * 256 + b) 0

/-- Merkle.DeleteFutureFinalizedTrees: modelled from the spec for the db
primitive — PrefixedIterate visits every key of the finalized-tree prefix
and Delete removes it, so the net effect on the prefixed sub-store (here a
list of key-value pairs) keeps exactly the keys whose trailing 8-byte
big-endian integer is below the cutoff. -/
def DeleteFutureFinalizedTrees (fromSequence : Nat) (store : List (Bytes × Bytes)) :
    List (Bytes × Bytes) :=
  store.filter fun kv => trailingUint64 kv.1 < fromSequence

/-- Merkle.DeleteFutureWorkingTrees: same shape over the working-tree
prefix. -/
def DeleteFutureWorkingTrees (fromVersion : Nat) (store : List (Bytes × Bytes)) :
    List (Bytes × Bytes) :=
  store.filter fun kv => trailingUint64 kv.1 < fromVersion

/-- Modelled from the spec: SeekPrevInclusiveKey over the finalized-tree
prefix (spec section 4.A) — the entry with the greatest key not exceeding
the target; the db package is not under src.  The finalized sub-store is a
list of (startLeafIndex key, record) pairs, records held as values since
the json codec round-trips. -/
def seekPrevInclusive (store : List (Nat × FinalizedTreeInfo)) (target : Nat) :
    Option (Nat × FinalizedTreeInfo) :=
  store.foldl
    (fun acc kv =>
      if kv.1 ≤ target then
        match acc with
        | none => some kv
        | some best => if best.1 < kv.1 then some kv else some best
      else acc)
    none

/-- The sibling-collection loop of GetProofs, with the remaining level
count made explicit (remaining = TreeHeight - height). -/
def proofLoop (nodes : NodeStore) (tIdx : Nat) :
    Nat → Nat → Nat → Except MerkleError (List Bytes)
  | 0, _, _ => .ok []
  | remaining + 1, height, localIdx =>
    match nodes (tIdx, height, localIdx ^^^ 1) with
    | none => .error .nodeNotFound
    | some sib =>
      match proofLoop nodes tIdx remaining (height + 1) (localIdx / 2) with
      | .error e => .error e
      | .ok rest => .ok (sib :: rest)

/-- Merkle.GetProofs: locate the covering finalized tree by
seek-previous-inclusive, validate the leaf index against it, then collect
the sibling path bottom-up. -/
def GetProofs (store : List (Nat × FinalizedTreeInfo)) (nodes : NodeStore)
    (leafIndex : Nat) : Except MerkleError (List Bytes × Nat × Bytes × Bytes) :=
  match seekPrevInclusive store leafIndex with
  | none => .error .unfinalizedTree
  | some kv =>
    let t := kv.2
    if leafIndex < t.startLeafIndex then
      .error (.leafNotInTree leafIndex t.treeIndex)
    else if t.leafCount ≤ leafIndex - t.startLeafIndex then
      .error .unfinalizedTree
    else
      match proofLoop nodes t.treeIndex t.treeHeight 0 (leafIndex - t.startLeafIndex) with
      | .error e => .error e
      | .ok proofs => .ok (proofs, t.treeIndex, t.root, t.extraData)

/-! Arithmetic facts about the bit length. -/

theorem len64Aux_zero (fuel : Nat) : len64Aux fuel 0 = 0 := by
  cases fuel <;> simp [len64Aux]

theorem len64Aux_congr (n : Nat) : ∀ f1 f2 : Nat, n ≤ f1 → n ≤ f2 →
    len64Aux f1 n = len64Aux f2 n := by
  induction n using Nat.strong_induction_on with
  | _ n ih =>
    intro f1 f2 h1 h2
    match n, f1, f2 with
    | 0, f1, f2 => rw [len64Aux_zero, len64Aux_zero]
    | m + 1, a + 1, b + 1 =>
      simp only [len64Aux, if_neg (Nat.succ_ne_zero m)]
      have hd : (m + 1) / 2 < m + 1 := Nat.div_lt_self (Nat.succ_pos m) (by omega)
      have ha : (m + 1) / 2 ≤ a := by omega
      have hb : (m + 1) / 2 ≤ b := by omega
      rw [ih ((m + 1) / 2) hd a b ha hb]

theorem len64_zero : len64 0 = 0 := rfl

theorem len64_succ (n : Nat) (h : 1 ≤ n) : len64 n = len64 (n / 2) + 1 := by
  match n, h with
  | m + 1, _ =>
    show len64Aux (m + 1) (m + 1) = len64 ((m + 1) / 2) + 1
    simp only [len64Aux, if_neg (Nat.succ_ne_zero m)]
    have hd : (m + 1) / 2 < m + 1 := Nat.div_lt_self (Nat.succ_pos m) (by omega)
    rw [len64Aux_congr ((m + 1) / 2) m ((m + 1) / 2) (by omega) (le_refl _)]
    rfl

theorem len64_le_iff (k : Nat) : ∀ n : Nat, len64 n ≤ k ↔ n < 2 ^ k := by
  induction k with
  | zero =>
    intro n
    cases n with
    | zero => simp [len64_zero]
    | succ m =>
      rw [len64_succ (m + 1) (Nat.succ_pos m)]
      simp
  | succ k ih =>
    intro n
    cases n with
    | zero => simp [len64_zero]
    | succ m =>
      rw [len64_succ (m + 1) (Nat.succ_pos m), Nat.add_le_add_iff_right, ih]
      have h2 : 2 ^ (k + 1) = 2 ^ k * 2 := by rw [Nat.pow_succ]
      omega

theorem len64_pos (n : Nat) (h : 1 ≤ n) : 1 ≤ len64 n := by
  rw [len64_succ n h]; omega

theorem lt_two_pow_len64 (n : Nat) : n < 2 ^ len64 n :=
  (len64_le_iff (len64 n) n).1 (le_refl _)

theorem len64_two_pow (k : Nat) : len64 (2 ^ k) = k + 1 := by
  have h1 : len64 (2 ^ k) ≤ k + 1 :=
    (len64_le_iff (k + 1) (2 ^ k)).2 (by
      calc 2 ^ k < 2 ^ k * 2 := by
            have : 0 < 2 ^ k := Nat.pos_pow_of_pos k (by omega)
            omega
        _ = 2 ^ (k + 1) := by rw [Nat.pow_succ])
  have h2 : ¬ len64 (2 ^ k) ≤ k := by
    rw [len64_le_iff]
    omega
  omega

theorem len64_succ_even (n : Nat) (he : n % 2 = 0) (h2 : 2 ≤ n) :
    len64 (n + 1) = len64 n := by
  rw [len64_succ (n + 1) (by omega), len64_succ n (by omega)]
  have : (n + 1) / 2 = n / 2 := by omega
  rw [this]

/-- The leaf count never exceeds the capacity 2^height of the working
tree's height. -/
theorem leafCount_le_two_pow_heightOf (n : Nat) : n ≤ 2 ^ heightOf n := by
  by_cases h : n ≤ 1
  · unfold heightOf
    rw [if_pos h]
    interval_cases n <;> simp
  · unfold heightOf
    rw [if_neg h]
    have := lt_two_pow_len64 (n - 1)
    omega

/-! Behaviour of the insertion loop. -/

/-- Levels strictly below the starting height are untouched by the
insertion loop. -/
theorem insertLoop_below (f : Bytes → Bytes → Bytes) (tIdx : Nat) :
    ∀ (fuel height localIdx : Nat) (data : Bytes) (sibs : Sibs) (nodes : NodeStore)
      (h : Nat), h < height →
      (insertLoop f tIdx fuel height localIdx data sibs nodes).1 h = sibs h := by
  intro fuel
  induction fuel with
  | zero => intro height localIdx data sibs nodes h _; rfl
  | succ fuel ih =>
    intro height localIdx data sibs nodes h hh
    simp only [insertLoop]
    by_cases he : localIdx % 2 = 0
    · rw [if_pos he]
      show updateSib sibs height data h = sibs h
      unfold updateSib
      rw [if_neg (by omega)]
    · rw [if_neg he]
      rw [ih (height + 1) (localIdx / 2) _ _ _ h (by omega)]
      unfold updateSib
      rw [if_neg (by omega)]

/-- The frontier after the insertion loop: if the levels above the start
height were populated exactly up to the bit length of the local index,
they end populated exactly up to the bit length of its successor. -/
theorem insertLoop_domain (f : Bytes → Bytes → Bytes) (tIdx : Nat) :
    ∀ (fuel localIdx : Nat), localIdx < fuel →
    ∀ (height : Nat) (data : Bytes) (sibs : Sibs) (nodes : NodeStore),
    (∀ h, (sibs (height + h)).isSome ↔ h < len64 localIdx) →
    ∀ h, ((insertLoop f tIdx fuel height localIdx data sibs nodes).1 (height + h)).isSome ↔
      h < len64 (localIdx + 1) := by
  intro fuel
  induction fuel with
  | zero => intro localIdx hlt; omega
  | succ fuel ih =>
    intro localIdx hlt height data sibs nodes hpre h
    simp only [insertLoop]
    by_cases he : localIdx % 2 = 0
    · rw [if_pos he]
      show ((updateSib sibs height data) (height + h)).isSome ↔ _
      unfold updateSib
      by_cases h0 : h = 0
      · subst h0
        rw [Nat.add_zero, if_pos rfl]
        simp only [Option.isSome_some, true_iff]
        exact len64_pos (localIdx + 1) (by omega)
      · rw [if_neg (by omega)]
        rw [hpre h]
        rcases Nat.eq_zero_or_pos localIdx with hz | hpos
        · subst hz
          simp only [Nat.zero_add]
          have e0 : len64 0 = 0 := rfl
          have e1 : len64 1 = 1 := rfl
          rw [e0, e1]
          omega
        · have h2 : 2 ≤ localIdx := by omega
          rw [len64_succ_even localIdx he h2]
    · rw [if_neg he]
      have hpre1 : ∀ h', ((updateSib sibs height data) ((height + 1) + h')).isSome ↔
          h' < len64 (localIdx / 2) := by
        intro h'
        unfold updateSib
        rw [if_neg (by omega)]
        have hi : height + 1 + h' = height + (1 + h') := by omega
        rw [hi, hpre (1 + h'), len64_succ localIdx (by omega)]
        omega
      cases h with
      | zero =>
        simp only [Nat.add_zero]
        rw [insertLoop_below f tIdx fuel (height + 1) (localIdx / 2) _ _ _ height (by omega)]
        show ((updateSib sibs height data) height).isSome ↔ _
        unfold updateSib
        rw [if_pos rfl]
        simp only [Option.isSome_some, true_iff]
        exact len64_pos (localIdx + 1) (by omega)
      | succ h1 =>
        have hi : height + (h1 + 1) = (height + 1) + h1 := by omega
        rw [hi, ih (localIdx / 2) (by omega) (height + 1) _ _ _ hpre1 h1]
        have hsucc : len64 (localIdx + 1) = len64 (localIdx / 2 + 1) + 1 := by
          rw [len64_succ (localIdx + 1) (by omega)]
          congr 2
          omega
        omega

/-- The frontier invariant: a level holds a last sibling exactly when it
is below the bit length of the leaf count. -/
def frontierInv (wt : TreeInfo) : Prop :=
  ∀ h, (wt.lastSiblings h).isSome ↔ h < len64 wt.leafCount

/-- insertLeafTree only rewrites the frontier and the leaf count. -/
theorem insertLeafTree_fields (f : Bytes → Bytes → Bytes) (wt : TreeInfo)
    (nodes : NodeStore) (data : Bytes) :
    (insertLeafTree f wt nodes data).1.index = wt.index ∧
    (insertLeafTree f wt nodes data).1.startLeafIndex = wt.startLeafIndex ∧
    (insertLeafTree f wt nodes data).1.done = wt.done ∧
    (insertLeafTree f wt nodes data).1.leafCount = wt.leafCount + 1 :=
  ⟨rfl, rfl, rfl, rfl⟩

/-- Inserting one leaf preserves the frontier invariant. -/
theorem insertLeafTree_frontier (f : Bytes → Bytes → Bytes) (wt : TreeInfo)
    (nodes : NodeStore) (data : Bytes) (hf : frontierInv wt) :
    frontierInv (insertLeafTree f wt nodes data).1 := by
  intro h
  show ((insertLoop f wt.index (wt.leafCount + 1) 0 wt.leafCount data
      wt.lastSiblings nodes).1 h).isSome ↔ h < len64 (wt.leafCount + 1)
  have hpre : ∀ h', (wt.lastSiblings (0 + h')).isSome ↔ h' < len64 wt.leafCount := by
    intro h'
    rw [Nat.zero_add]
    exact hf h'
  have := insertLoop_domain f wt.index (wt.leafCount + 1) wt.leafCount (by omega)
    0 data wt.lastSiblings nodes hpre h
  rwa [Nat.zero_add] at this

/-- Iterated insertion shifts the leaf count and keeps the identifying
fields. -/
theorem iterateInsert_fields (f : Bytes → Bytes → Bytes) (data : Bytes) :
    ∀ (k : Nat) (p : TreeInfo × NodeStore),
    (iterateInsert f data k p).1.index = p.1.index ∧
    (iterateInsert f data k p).1.startLeafIndex = p.1.startLeafIndex ∧
    (iterateInsert f data k p).1.done = p.1.done ∧
    (iterateInsert f data k p).1.leafCount = p.1.leafCount + k := by
  intro k
  induction k with
  | zero => intro p; exact ⟨rfl, rfl, rfl, rfl⟩
  | succ k ih =>
    intro p
    simp only [iterateInsert]
    obtain ⟨h1, h2, h3, h4⟩ := ih (insertLeafTree f p.1 p.2 data)
    obtain ⟨g1, g2, g3, g4⟩ := insertLeafTree_fields f p.1 p.2 data
    refine ⟨?_, ?_, ?_, ?_⟩
    · rw [h1, g1]
    · rw [h2, g2]
    · rw [h3, g3]
    · rw [h4, g4]; omega

/-- Iterated insertion preserves the frontier invariant. -/
theorem iterateInsert_frontier (f : Bytes → Bytes → Bytes) (data : Bytes) :
    ∀ (k : Nat) (p : TreeInfo × NodeStore), frontierInv p.1 →
    frontierInv (iterateInsert f data k p).1 := by
  intro k
  induction k with
  | zero => intro p hp; exact hp
  | succ k ih =>
    intro p hp
    simp only [iterateInsert]
    exact ih (insertLeafTree f p.1 p.2 data) (insertLeafTree_frontier f p.1 p.2 data hp)

/-- Padding restores the pre-padding leaf count and the identifying
fields. -/
theorem fillLeaves_fields (f : Bytes → Bytes → Bytes) (wt : TreeInfo) (nodes : NodeStore) :
    (fillLeaves f wt nodes).1.index = wt.index ∧
    (fillLeaves f wt nodes).1.startLeafIndex = wt.startLeafIndex ∧
    (fillLeaves f wt nodes).1.done = wt.done ∧
    (fillLeaves f wt nodes).1.leafCount = wt.leafCount := by
  simp only [fillLeaves]
  by_cases hz : 2 ^ heightOf wt.leafCount - wt.leafCount = 0
  · rw [if_pos hz]
    exact ⟨rfl, rfl, rfl, rfl⟩
  · rw [if_neg hz]
    obtain ⟨h1, h2, h3, h4⟩ := iterateInsert_fields f ((wt.lastSiblings 0).getD [])
      (2 ^ heightOf wt.leafCount - wt.leafCount) (wt, nodes)
    refine ⟨h1, h2, h3, ?_⟩
    have h4a : (iterateInsert f ((wt.lastSiblings 0).getD [])
        (2 ^ heightOf wt.leafCount - wt.leafCount) (wt, nodes)).1.leafCount =
        wt.leafCount + (2 ^ heightOf wt.leafCount - wt.leafCount) := h4
    show (iterateInsert f ((wt.lastSiblings 0).getD [])
        (2 ^ heightOf wt.leafCount - wt.leafCount) (wt, nodes)).1.leafCount -
        (2 ^ heightOf wt.leafCount - wt.leafCount) = wt.leafCount
    rw [h4a]
    omega

/-- After padding, the frontier is populated exactly on the levels
0 .. height: one more level than the bit length of the unpadded count
whenever padding inserted anything. -/
theorem fillLeaves_frontier (f : Bytes → Bytes → Bytes) (wt : TreeInfo) (nodes : NodeStore)
    (hf : frontierInv wt) :
    ∀ h, ((fillLeaves f wt nodes).1.lastSiblings h).isSome ↔
      h < heightOf wt.leafCount + 1 := by
  intro h
  have hcap : wt.leafCount ≤ 2 ^ heightOf wt.leafCount := leafCount_le_two_pow_heightOf _
  simp only [fillLeaves]
  by_cases hz : 2 ^ heightOf wt.leafCount - wt.leafCount = 0
  · rw [if_pos hz]
    have hpow : wt.leafCount = 2 ^ heightOf wt.leafCount := by omega
    have hlen : len64 wt.leafCount = heightOf wt.leafCount + 1 := by
      conv_lhs => rw [hpow]
      rw [len64_two_pow]
    rw [hf h, hlen]
  · rw [if_neg hz]
    have hfr := iterateInsert_frontier f ((wt.lastSiblings 0).getD [])
      (2 ^ heightOf wt.leafCount - wt.leafCount) (wt, nodes) hf
    have hcount := (iterateInsert_fields f ((wt.lastSiblings 0).getD [])
      (2 ^ heightOf wt.leafCount - wt.leafCount) (wt, nodes)).2.2.2
    show ((iterateInsert f ((wt.lastSiblings 0).getD [])
        (2 ^ heightOf wt.leafCount - wt.leafCount) (wt, nodes)).1.lastSiblings h).isSome ↔ _
    rw [hfr h, hcount]
    have hpow : wt.leafCount + (2 ^ heightOf wt.leafCount - wt.leafCount) =
        2 ^ heightOf wt.leafCount := by omega
    rw [hpow, len64_two_pow]

/-! Concrete sample runs used to exercise the theorems. -/

/-- A sample commutativity-failing-free pairing for concrete runs:
concatenation is not commutative, but no theorem below relies on
commutativity of the sample. -/
def f0 : Bytes → Bytes → Bytes := fun a b => a ++ b

/-- The freshly constructed engine: no working tree, empty node store. -/
def s0 : MerkleState := { workingTree := none, nodes := fun _ => none }

/-- Engine after InitializeWorkingTree(1, 1). -/
def sInit : MerkleState := (InitializeWorkingTree s0 1 1).1

/-- Engine after additionally inserting one leaf [5]. -/
def c1State : MerkleState := (InsertLeaf f0 sInit [5]).1

/-- The working tree held by c1State, written out. -/
def c1Tree : TreeInfo :=
  { index := 1, startLeafIndex := 1, leafCount := 1,
    lastSiblings := updateSib (fun _ => none) 0 [5], done := false }

theorem c1State_workingTree : c1State.workingTree = some c1Tree := rfl

/-! Claim theorems. -/

/-- Claim C2: Height returns 0 for a leaf count of 0, 1 for a leaf count
of 1, and otherwise the bit length of leafCount - 1 (witnessed by the
two-power bracketing), and returns the WorkingTreeNotInitialized error
when no working tree exists. -/
theorem height_spec (s : MerkleState) :
    (s.workingTree = none → Height s = .error .workingTreeNotInitialized) ∧
    (∀ wt, s.workingTree = some wt →
      (wt.leafCount = 0 → Height s = .ok 0) ∧
      (wt.leafCount = 1 → Height s = .ok 1) ∧
      (2 ≤ wt.leafCount → Height s = .ok (len64 (wt.leafCount - 1)) ∧
        2 ^ (len64 (wt.leafCount - 1) - 1) ≤ wt.leafCount - 1 ∧
        wt.leafCount - 1 < 2 ^ len64 (wt.leafCount - 1))) := by
  constructor
  · intro h
    simp [Height, h]
  · intro wt hw
    refine ⟨?_, ?_, ?_⟩
    · intro h0
      simp [Height, hw, heightOf, h0]
    · intro h1
      simp [Height, hw, heightOf, h1]
    · intro h2
      have hh : heightOf wt.leafCount = len64 (wt.leafCount - 1) := by
        unfold heightOf
        rw [if_neg (by omega)]
      refine ⟨by simp [Height, hw, hh], ?_, lt_two_pow_len64 _⟩
      have hm : 1 ≤ wt.leafCount - 1 := by omega
      have hp := len64_pos _ hm
      have hnot : ¬ len64 (wt.leafCount - 1) ≤ len64 (wt.leafCount - 1) - 1 := by omega
      rw [len64_le_iff] at hnot
      omega

/-- A five-leaf working tree used to evaluate height_spec. -/
def heightWitTree : TreeInfo :=
  { index := 1, startLeafIndex := 1, leafCount := 5,
    lastSiblings := fun _ => none, done := false }

/-- Engine state holding heightWitTree. -/
def heightWitState : MerkleState :=
  { workingTree := some heightWitTree, nodes := fun _ => none }

/-- Witness for height_spec: with five leaves the height is the bit
length of 4, namely 3, bracketed by 4 and 8. -/
theorem height_spec_witness : Height heightWitState = .ok (len64 4) ∧
    2 ^ (len64 4 - 1) ≤ 4 ∧ 4 < 2 ^ len64 4 :=
  ((height_spec heightWitState).2 heightWitTree rfl).2.2 (by decide)

/-- Claim C1: finalizing a working tree with at least one leaf pads,
computes the height, reads the root from the frontier at the height, and
returns a single-entry batch from the finalized-tree key to the record,
whose stored LeafCount is the unpadded count. -/
theorem finalize_spec (f : Bytes → Bytes → Bytes) (s : MerkleState) (wt : TreeInfo)
    (extra : Bytes) (hw : s.workingTree = some wt) (hc : 1 ≤ wt.leafCount) :
    ∃ wt1 root,
      (FinalizeWorkingTree f s extra).1.workingTree = some wt1 ∧
      (FinalizeWorkingTree f s extra).2 = .ok
        ([{ key := finalizedTreeKey wt.startLeafIndex,
            value := { treeIndex := wt.index, treeHeight := heightOf wt.leafCount,
                       root := root, startLeafIndex := wt.startLeafIndex,
                       leafCount := wt.leafCount, extraData := extra } }], root) ∧
      root = (wt1.lastSiblings (heightOf wt.leafCount)).getD [] ∧
      wt1.leafCount = wt.leafCount := by
  have hne : ¬ wt.leafCount = 0 := by omega
  obtain ⟨e1, e2, e3, e4⟩ := fillLeaves_fields f { wt with done := true } s.nodes
  refine ⟨(fillLeaves f { wt with done := true } s.nodes).1,
    ((fillLeaves f { wt with done := true } s.nodes).1.lastSiblings
      (heightOf wt.leafCount)).getD [], ?_, ?_, ?_, ?_⟩
  · simp [FinalizeWorkingTree, hw, hne]
  · have ed : ({ wt with done := true } : TreeInfo).leafCount = wt.leafCount := rfl
    simp only [FinalizeWorkingTree, hw]
    rw [ed] at e4
    simp [hne, e1, e2, e4]
  · rfl
  · rw [e4]

/-- Witness for finalize_spec: finalizing the one-leaf tree of c1State. -/
theorem finalize_spec_witness :
    ∃ wt1 root,
      (FinalizeWorkingTree f0 c1State []).1.workingTree = some wt1 ∧
      (FinalizeWorkingTree f0 c1State []).2 = .ok
        ([{ key := finalizedTreeKey c1Tree.startLeafIndex,
            value := { treeIndex := c1Tree.index, treeHeight := heightOf c1Tree.leafCount,
                       root := root, startLeafIndex := c1Tree.startLeafIndex,
                       leafCount := c1Tree.leafCount, extraData := [] } }], root) ∧
      root = (wt1.lastSiblings (heightOf c1Tree.leafCount)).getD [] ∧
      wt1.leafCount = c1Tree.leafCount :=
  finalize_spec f0 c1State c1Tree [] c1State_workingTree (by decide)

/-- Engine after initializing tree (1,1), inserting leaf [5] and
finalizing: the state refuting the at-all-times frontier-size law. -/
def c3FinalState : MerkleState := (FinalizeWorkingTree f0 c1State []).1

/-- The working tree held by c3FinalState, written out: padding populated
level 1 while the leaf count went back to 1. -/
def c3FinalTree : TreeInfo :=
  { index := 1, startLeafIndex := 1, leafCount := 1,
    lastSiblings := updateSib (updateSib (updateSib (fun _ => none) 0 [5]) 0 [5]) 1 [5, 5],
    done := true }

/-- Claim C3 counterexample: after FinalizeWorkingTree on a one-leaf tree
the frontier has levels 0 and 1 defined (two levels) while the bit length
of the leaf count 1 is 1, so the frontier-size law fails after
finalization. -/
theorem frontier_bitlen_counterexample :
    c3FinalState.workingTree = some c3FinalTree ∧
    ¬ frontierInv c3FinalTree ∧
    (c3FinalTree.lastSiblings 0).isSome = true ∧
    (c3FinalTree.lastSiblings 1).isSome = true ∧
    c3FinalTree.leafCount = 1 ∧ len64 1 = 1 := by
  refine ⟨rfl, ?_, rfl, rfl, rfl, rfl⟩
  intro h
  have h1 : (1 : Nat) < len64 c3FinalTree.leafCount := (h 1).1 rfl
  have e1 : len64 c3FinalTree.leafCount = 1 := rfl
  omega

/-- Claim C3, amended: the frontier-size law |LastSiblings| =
bit_length(LeafCount) holds after a successful InitializeWorkingTree and
after every InsertLeaf; after a FinalizeWorkingTree whose tree had at
least one leaf, the frontier instead covers exactly levels 0..Height,
i.e. Height+1 levels (the bit length of the padded count 2^Height), which
exceeds bit_length(LeafCount) whenever padding inserted leaves. -/
theorem frontier_amended (f : Bytes → Bytes → Bytes) :
    (∀ (s : MerkleState) (ti sli : Nat) (wt1 : TreeInfo),
      (InitializeWorkingTree s ti sli).2 = none →
      (InitializeWorkingTree s ti sli).1.workingTree = some wt1 →
      frontierInv wt1) ∧
    (∀ (s : MerkleState) (wt : TreeInfo) (data : Bytes) (wt1 : TreeInfo),
      s.workingTree = some wt → frontierInv wt →
      (InsertLeaf f s data).1.workingTree = some wt1 →
      frontierInv wt1) ∧
    (∀ (s : MerkleState) (wt : TreeInfo) (extra : Bytes) (wt1 : TreeInfo),
      s.workingTree = some wt → frontierInv wt → 1 ≤ wt.leafCount →
      (FinalizeWorkingTree f s extra).1.workingTree = some wt1 →
      ∀ h, (wt1.lastSiblings h).isSome ↔ h < heightOf wt.leafCount + 1) := by
  refine ⟨?_, ?_, ?_⟩
  · intro s ti sli wt1 hok hw
    by_cases hc : ti < 1 ∨ sli < 1
    · rw [InitializeWorkingTree, if_pos hc] at hok
      simp at hok
    · rw [InitializeWorkingTree, if_neg hc] at hw
      simp at hw
      subst hw
      intro h
      simp [len64_zero]
    -- a fresh tree has an empty frontier and leaf count zero
  · intro s wt data wt1 hs hf hw
    rw [InsertLeaf, hs] at hw
    simp at hw
    subst hw
    exact insertLeafTree_frontier f wt s.nodes data hf
  · intro s wt extra wt1 hs hf hc hw
    have hne : ¬ wt.leafCount = 0 := by omega
    rw [FinalizeWorkingTree, hs] at hw
    simp only [hne, if_false, if_neg hne] at hw
    simp at hw
    subst hw
    have hfd : frontierInv { wt with done := true } := hf
    exact fillLeaves_frontier f { wt with done := true } s.nodes hfd

/-- The working tree after inserting a second leaf [7] into c1State. -/
def c3InsTree : TreeInfo :=
  { index := 1, startLeafIndex := 1, leafCount := 2,
    lastSiblings := updateSib (updateSib (updateSib (fun _ => none) 0 [5]) 0 [7]) 1 [5, 7],
    done := false }

/-- Witness for frontier_amended: after the second insertion level 1 is
populated, matching the bit length 2 of the leaf count. -/
theorem frontier_amended_witness :
    (c3InsTree.lastSiblings 1).isSome ↔ 1 < len64 c3InsTree.leafCount := by
  have hfc1 : frontierInv c1Tree := by
    intro h
    show (updateSib (fun _ => none) 0 [5] h).isSome ↔ h < len64 1
    have e1 : len64 1 = 1 := rfl
    rw [e1]
    unfold updateSib
    by_cases h0 : h = 0
    · subst h0
      simp
    · rw [if_neg h0]
      simp
      omega
  exact (frontier_amended f0).2.1 c1State c1Tree [7] c3InsTree
    c1State_workingTree hfc1 rfl 1

/-- A finalized (Done = true) working tree with no leaves. -/
def doneTree : TreeInfo :=
  { index := 1, startLeafIndex := 1, leafCount := 0,
    lastSiblings := fun _ => none, done := true }

/-- Engine holding doneTree. -/
def doneState : MerkleState := { workingTree := some doneTree, nodes := fun _ => none }

/-- Claim C8 counterexample: InsertLeaf on a Done working tree returns no
error and increments the leaf count — the Done flag is never inspected. -/
theorem insert_done_counterexample :
    (InsertLeaf f0 doneState [5]).2 = none ∧
    ((InsertLeaf f0 doneState [5]).1.workingTree.map fun wt => (wt.leafCount, wt.done)) =
      some (1, true) :=
  ⟨rfl, rfl⟩

/-- Claim C8, amended: InsertLeaf rejects only a missing working tree; it
does not check Done, so inserting into a Done tree succeeds, increments
LeafCount and leaves Done unchanged (finalization's own padding relies on
inserting after Done is set). -/
theorem insert_done_amended (f : Bytes → Bytes → Bytes) (data : Bytes) (s : MerkleState) :
    (s.workingTree = none → InsertLeaf f s data = (s, some .workingTreeNotInitialized)) ∧
    (∀ wt, s.workingTree = some wt →
      (InsertLeaf f s data).2 = none ∧
      ((InsertLeaf f s data).1.workingTree.map TreeInfo.leafCount) = some (wt.leafCount + 1) ∧
      ((InsertLeaf f s data).1.workingTree.map TreeInfo.done) = some wt.done) := by
  constructor
  · intro h
    simp [InsertLeaf, h]
  · intro wt hw
    refine ⟨?_, ?_, ?_⟩ <;> simp [InsertLeaf, hw, insertLeafTree]

/-- Witness for insert_done_amended, at the concrete Done tree. -/
theorem insert_done_amended_witness :
    (InsertLeaf f0 doneState [9]).2 = none ∧
    ((InsertLeaf f0 doneState [9]).1.workingTree.map TreeInfo.leafCount) = some 1 ∧
    ((InsertLeaf f0 doneState [9]).1.workingTree.map TreeInfo.done) = some true :=
  (insert_done_amended f0 [9] doneState).2 doneTree rfl

/-- A Done snapshot whose tree index is the largest uint64. -/
def overflowTree : TreeInfo :=
  { index := 2 ^ 64 - 1, startLeafIndex := 1, leafCount := 0,
    lastSiblings := fun _ => none, done := true }

/-- Claim C7 counterexample: loading a Done snapshot with Index =
2^64 - 1 wraps the successor index to 0 in uint64 arithmetic, so
initialization of the successor fails with the invalid-index error and
the engine is left holding the loaded Done tree, not the successor. -/
theorem load_successor_counterexample :
    (LoadWorkingTree s0 overflowTree false).2 = some (.invalidIndex 0 1) ∧
    ((LoadWorkingTree s0 overflowTree false).1.workingTree.map TreeInfo.done) = some true ∧
    ((LoadWorkingTree s0 overflowTree false).1.workingTree.map TreeInfo.index) =
      some (2 ^ 64 - 1) := by
  refine ⟨?_, ?_, ?_⟩ <;> rfl

/-- Claim C7, amended: loading a cleanly decoded Done snapshot installs
the successor working tree (Index+1, StartLeafIndex+LeafCount, zero
leaves, empty frontier, not Done), provided the successor arithmetic does
not leave the uint64 range
(Index + 1 < 2^64 and 1 <= StartLeafIndex + LeafCount < 2^64). -/
theorem load_successor_amended (s : MerkleState) (t : TreeInfo) (hd : t.done = true)
    (hi : t.index + 1 < 2 ^ 64) (hs1 : 1 ≤ t.startLeafIndex + t.leafCount)
    (hs2 : t.startLeafIndex + t.leafCount < 2 ^ 64) :
    LoadWorkingTree s t false =
      ({ s with workingTree := some (TreeInfo.mk (t.index + 1)
          (t.startLeafIndex + t.leafCount) 0 (fun _ => none) false) }, none) := by
  simp only [LoadWorkingTree, InitializeWorkingTree, hd, Bool.false_eq_true, if_false,
    if_true, Nat.mod_eq_of_lt hi, Nat.mod_eq_of_lt hs2]
  rw [if_neg (by omega)]

/-- A small Done snapshot for the load_successor_amended witness. -/
def loadDoneTree : TreeInfo :=
  { index := 3, startLeafIndex := 5, leafCount := 2,
    lastSiblings := fun _ => none, done := true }

/-- Witness for load_successor_amended at a concrete Done snapshot. -/
theorem load_successor_amended_witness :
    LoadWorkingTree s0 loadDoneTree false =
      ({ s0 with workingTree := some (TreeInfo.mk 4 7 0 (fun _ => none) false) }, none) :=
  load_successor_amended s0 loadDoneTree rfl (by decide) (by decide) (by decide)

/-- Claim C10: LoadWorkingTree is not atomic on decode failure — the
engine's working tree is replaced with the decoded value before the codec
error is returned, so whatever tree was held before the failed load is
lost. -/
theorem load_decode_failure_not_atomic (s : MerkleState) (decoded : TreeInfo) :
    LoadWorkingTree s decoded true =
      ({ s with workingTree := some decoded }, some .codecError) := by
  simp [LoadWorkingTree]

/-- Filtering a list twice with the same predicate equals filtering it
once. -/
theorem filter_idem {α : Type} (p : α → Bool) (l : List α) :
    (l.filter p).filter p = l.filter p := by
  induction l with
  | nil => rfl
  | cons a l ih =>
    by_cases h : p a <;> simp [List.filter_cons, h, ih]

/-- Claim C9: both delete-future operations are idempotent — a second call
with the same cutoff finds nothing left to delete — because a call keeps
exactly the prefixed entries whose trailing 8-byte big-endian integer is
below the cutoff. -/
theorem delete_future_idempotent (k : Nat) (store : List (Bytes × Bytes)) :
    DeleteFutureFinalizedTrees k (DeleteFutureFinalizedTrees k store) =
      DeleteFutureFinalizedTrees k store ∧
    DeleteFutureWorkingTrees k (DeleteFutureWorkingTrees k store) =
      DeleteFutureWorkingTrees k store ∧
    (∀ kv, kv ∈ DeleteFutureFinalizedTrees k store ↔
      kv ∈ store ∧ trailingUint64 kv.1 < k) ∧
    (∀ kv, kv ∈ DeleteFutureWorkingTrees k store ↔
      kv ∈ store ∧ trailingUint64 kv.1 < k) := by
  refine ⟨?_, ?_, ?_, ?_⟩
  · exact filter_idem _ store
  · exact filter_idem _ store
  · intro kv
    simp [DeleteFutureFinalizedTrees, List.mem_filter]
  · intro kv
    simp [DeleteFutureWorkingTrees, List.mem_filter]

/-- Claim C4: GetProofs returns the UnfinalizedTree error when the
seek-previous-inclusive lookup finds nothing, the LeafNotInTree error
when the leaf index falls below the located record's start, and the
UnfinalizedTree error when the local index reaches or exceeds the
record's leaf count — with no proofs in any of the three cases. -/
theorem getProofs_error_cases (store : List (Nat × FinalizedTreeInfo)) (nodes : NodeStore)
    (leafIndex : Nat) :
    (seekPrevInclusive store leafIndex = none →
      GetProofs store nodes leafIndex = .error .unfinalizedTree) ∧
    (∀ kv, seekPrevInclusive store leafIndex = some kv →
      leafIndex < kv.2.startLeafIndex →
      GetProofs store nodes leafIndex = .error (.leafNotInTree leafIndex kv.2.treeIndex)) ∧
    (∀ kv, seekPrevInclusive store leafIndex = some kv →
      kv.2.startLeafIndex ≤ leafIndex →
      kv.2.leafCount ≤ leafIndex - kv.2.startLeafIndex →
      GetProofs store nodes leafIndex = .error .unfinalizedTree) := by
  refine ⟨?_, ?_, ?_⟩
  · intro h
    simp [GetProofs, h]
  · intro kv h hlt
    simp only [GetProofs, h]
    rw [if_pos hlt]
  · intro kv h hge hc
    simp only [GetProofs, h]
    rw [if_neg (by omega), if_pos hc]

/-- A finalized record for the out-of-range error witness. -/
def gpTree1 : FinalizedTreeInfo :=
  { treeIndex := 1, treeHeight := 2, root := [1], startLeafIndex := 1,
    leafCount := 4, extraData := [2] }

/-- An inconsistent record (stored under key 0 but claiming start 10),
reaching the defensive LeafNotInTree branch. -/
def gpTreeBad : FinalizedTreeInfo :=
  { treeIndex := 7, treeHeight := 2, root := [1], startLeafIndex := 10,
    leafCount := 4, extraData := [2] }

/-- Witness for getProofs_error_cases: all three error branches at
concrete stores and leaf index 5. -/
theorem getProofs_error_cases_witness :
    GetProofs [] (fun _ => none) 5 = .error .unfinalizedTree ∧
    GetProofs [(0, gpTreeBad)] (fun _ => none) 5 = .error (.leafNotInTree 5 7) ∧
    GetProofs [(1, gpTree1)] (fun _ => none) 5 = .error .unfinalizedTree := by
  refine ⟨?_, ?_, ?_⟩
  · exact (getProofs_error_cases [] (fun _ => none) 5).1 rfl
  · exact (getProofs_error_cases [(0, gpTreeBad)] (fun _ => none) 5).2.1
      (0, gpTreeBad) rfl (by decide)
  · exact (getProofs_error_cases [(1, gpTree1)] (fun _ => none) 5).2.2
      (1, gpTree1) rfl (by decide) (by decide)

/-- Shape of a successful proofLoop run: one sibling per remaining level,
the j-th read at height + j with the local index halved j times and its
last bit flipped. -/
theorem proofLoop_spec (nodes : NodeStore) (tIdx : Nat) :
    ∀ (remaining height localIdx : Nat) (l : List Bytes),
    proofLoop nodes tIdx remaining height localIdx = .ok l →
    l.length = remaining ∧
    ∀ j, j < remaining → l.get? j = nodes (tIdx, height + j, localIdx / 2 ^ j ^^^ 1) := by
  intro remaining
  induction remaining with
  | zero =>
    intro height localIdx l h
    simp only [proofLoop, Except.ok.injEq] at h
    subst h
    exact ⟨rfl, by omega⟩
  | succ remaining ih =>
    intro height localIdx l h
    simp only [proofLoop] at h
    cases hn : nodes (tIdx, height, localIdx ^^^ 1) with
    | none =>
      rw [hn] at h
      exact absurd h (by simp)
    | some sib =>
      rw [hn] at h
      cases hr : proofLoop nodes tIdx remaining (height + 1) (localIdx / 2) with
      | error e =>
        rw [hr] at h
        exact absurd h (by simp)
      | ok rest =>
        rw [hr] at h
        simp only [Except.ok.injEq] at h
        subst h
        obtain ⟨hlen, helts⟩ := ih (height + 1) (localIdx / 2) rest hr
        refine ⟨by simp [hlen], ?_⟩
        intro j hj
        cases j with
        | zero =>
          simp [hn]
        | succ j =>
          have he := helts j (by omega)
          have hcoord : height + 1 + j = height + (j + 1) := by omega
          have hdiv : localIdx / 2 / 2 ^ j = localIdx / 2 ^ (j + 1) := by
            rw [Nat.div_div_eq_div_mul, Nat.pow_succ, Nat.mul_comm]
          rw [hcoord, hdiv] at he
          simpa using he

/-- Claim C5: a successful GetProofs on a located record returns exactly
TreeHeight siblings, the h-th being the stored node at
(treeIndex, h, (localIndex halved h times) XOR 1). -/
theorem getProofs_success_spec (store : List (Nat × FinalizedTreeInfo)) (nodes : NodeStore)
    (leafIndex : Nat) (kv : Nat × FinalizedTreeInfo) (proofs : List Bytes)
    (ti : Nat) (rt ed : Bytes)
    (hseek : seekPrevInclusive store leafIndex = some kv)
    (hok : GetProofs store nodes leafIndex = .ok (proofs, ti, rt, ed)) :
    proofs.length = kv.2.treeHeight ∧
    ∀ j, j < kv.2.treeHeight →
      proofs.get? j =
        nodes (kv.2.treeIndex, j, (leafIndex - kv.2.startLeafIndex) / 2 ^ j ^^^ 1) := by
  simp only [GetProofs, hseek] at hok
  by_cases h1 : leafIndex < kv.2.startLeafIndex
  · rw [if_pos h1] at hok
    exact absurd hok (by simp)
  · rw [if_neg h1] at hok
    by_cases h2 : kv.2.leafCount ≤ leafIndex - kv.2.startLeafIndex
    · rw [if_pos h2] at hok
      exact absurd hok (by simp)
    · rw [if_neg h2] at hok
      cases hp : proofLoop nodes kv.2.treeIndex kv.2.treeHeight 0
          (leafIndex - kv.2.startLeafIndex) with
      | error e =>
        rw [hp] at hok
        exact absurd hok (by simp)
      | ok l =>
        rw [hp] at hok
        simp only [Except.ok.injEq, Prod.mk.injEq] at hok
        obtain ⟨hl, _⟩ := hok
        subst hl
        obtain ⟨hlen, helts⟩ := proofLoop_spec nodes kv.2.treeIndex kv.2.treeHeight 0
          (leafIndex - kv.2.startLeafIndex) l hp
        refine ⟨hlen, ?_⟩
        intro j hj
        have := helts j hj
        simpa using this

/-- The finalized record for the successful-proof witness: three real
leaves, height two, starting at global leaf index 1. -/
def gpTree2 : FinalizedTreeInfo :=
  { treeIndex := 1, treeHeight := 2, root := [3], startLeafIndex := 1,
    leafCount := 3, extraData := [4] }

/-- Node store holding the two siblings needed to prove leaf index 2 of
gpTree2. -/
def gpNodes : NodeStore :=
  fun k => if k = (1, 0, 0) then some [10] else if k = (1, 1, 1) then some [11] else none

/-- Witness for getProofs_success_spec: the proof for leaf 2 has length 2
and its first element is the stored level-0 sibling. -/
theorem getProofs_success_spec_witness :
    ([[10], [11]] : List Bytes).length = 2 ∧
    ([[10], [11]] : List Bytes).get? 0 = gpNodes (1, 0, 0) := by
  have h := getProofs_success_spec [(1, gpTree2)] gpNodes 2 (1, gpTree2)
    [[10], [11]] 1 [3] [4] rfl rfl
  exact ⟨h.1, h.2 0 (by decide)⟩

/-- The 32-byte buffer of a repeated byte b. -/
def rep32 (b : Nat) : Bytes := List.replicate 32 b

/-- A pairing that is non-commutative only on the 32-byte pair
(rep32 0, rep32 1). -/
def badPair : Bytes → Bytes → Bytes :=
  fun a b => if a = rep32 0 ∧ b = rep32 1 then rep32 1 else rep32 0

/-- Claim C6 counterexample: badPair is non-commutative on the 32-byte
pair (rep32 0, rep32 1), yet the engine constructed with the 32-byte
random draws rep32 2 and rep32 3 succeeds: the self-test only samples one
pair. -/
theorem newMerkle_commutativity_counterexample :
    badPair (rep32 0) (rep32 1) ≠ badPair (rep32 1) (rep32 0) ∧
    (NewMerkle badPair (rep32 2) (rep32 3)).toOption.isSome = true :=
  ⟨by decide, by decide⟩

/-- Claim C6, amended: construction fails with the non-commutativity
error exactly when the pairing differs on the two randomly drawn buffers;
a pairing that is commutative on the drawn pair but not elsewhere
constructs successfully. -/
theorem newMerkle_selftest_amended (f : Bytes → Bytes → Bytes) (r1 r2 : Bytes) :
    NewMerkle f r1 r2 = .error .nonCommutativePair ↔ f r1 r2 ≠ f r2 r1 := by
  unfold NewMerkle validateNodeGeneratorFn
  by_cases h : f r1 r2 = f r2 r1
  · rw [if_pos h]
    simp [h]
  · rw [if_neg h]
    simp [h]

end OpinitMerkle
